import Mathlib

/-!
Shallow embedding of `crates/typst-library/src/model/numbering.rs`:
the numbering-pattern compiler, formatter, and the registry of numeral
systems.  Strings are modelled as lists of Unicode characters
(`EcoString := List Char`), which matches the Rust code's character-level
processing (`char_indices`, `push`, `push_str`); machine integers (`u64`,
`usize`) are modelled as `Nat` — no wrapping arithmetic occurs in the
translated code.
-/

/-- Rust `EcoString`, modelled as a list of Unicode scalar values. -/
abbrev EcoString := List Char

/-- `crate::text::Case`, as used by the Roman and Greek converters. -/
inductive Case where
  | Lower
  | Upper
deriving DecidableEq, Repr, Fintype

/-- The `NumberingKind` enum: the closed registry of numeral systems. -/
inductive NumberingKind where
  | Arabic
  | LowerLatin
  | UpperLatin
  | LowerRoman
  | UpperRoman
  | LowerGreek
  | UpperGreek
  | Symbol
  | Hebrew
  | LowerSimplifiedChinese
  | UpperSimplifiedChinese
  | LowerTraditionalChinese
  | UpperTraditionalChinese
  | HiraganaAiueo
  | HiraganaIroha
  | KatakanaAiueo
  | KatakanaIroha
  | KoreanJamo
  | KoreanSyllable
  | EasternArabic
  | EasternArabicPersian
  | DevanagariNumber
  | BengaliNumber
  | BengaliLetter
  | CircledNumber
  | DoubleCircledNumber
deriving DecidableEq, Repr

/-- `NumberingKind::from_char`: representative character to kind. -/
def NumberingKind.from_char (c : Char) : Option NumberingKind :=
  match c with
  | '1' => some .Arabic
  | 'a' => some .LowerLatin
  | 'A' => some .UpperLatin
  | 'i' => some .LowerRoman
  | 'I' => some .UpperRoman
  | 'α' => some .LowerGreek
  | 'Α' => some .UpperGreek
  | '*' => some .Symbol
  | 'א' => some .Hebrew
  | '一' => some .LowerSimplifiedChinese
  | '壹' => some .UpperSimplifiedChinese
  | 'あ' => some .HiraganaAiueo
  | 'い' => some .HiraganaIroha
  | 'ア' => some .KatakanaAiueo
  | 'イ' => some .KatakanaIroha
  | 'ㄱ' => some .KoreanJamo
  | '가' => some .KoreanSyllable
  | '١' => some .EasternArabic
  | '۱' => some .EasternArabicPersian
  | '१' => some .DevanagariNumber
  | '১' => some .BengaliNumber
  | 'ক' => some .BengaliLetter
  | '①' => some .CircledNumber
  | '⓵' => some .DoubleCircledNumber
  | _ => none

/-- `NumberingKind::to_char`: the representative character of a kind. -/
def NumberingKind.to_char : NumberingKind → Char
  | .Arabic => '1'
  | .LowerLatin => 'a'
  | .UpperLatin => 'A'
  | .LowerRoman => 'i'
  | .UpperRoman => 'I'
  | .LowerGreek => 'α'
  | .UpperGreek => 'Α'
  | .Symbol => '*'
  | .Hebrew => 'א'
  | .LowerSimplifiedChinese | .LowerTraditionalChinese => '一'
  | .UpperSimplifiedChinese | .UpperTraditionalChinese => '壹'
  | .HiraganaAiueo => 'あ'
  | .HiraganaIroha => 'い'
  | .KatakanaAiueo => 'ア'
  | .KatakanaIroha => 'イ'
  | .KoreanJamo => 'ㄱ'
  | .KoreanSyllable => '가'
  | .EasternArabic => '١'
  | .EasternArabicPersian => '۱'
  | .DevanagariNumber => '१'
  | .BengaliNumber => '১'
  | .BengaliLetter => 'ক'
  | .CircledNumber => '①'
  | .DoubleCircledNumber => '⓵'

/-- The descending 22-entry Hebrew letter-value table from `hebrew_numeral`. -/
def hebrewTable : List (Char × Nat) :=
  [('ת', 400), ('ש', 300), ('ר', 200), ('ק', 100), ('צ', 90), ('פ', 80),
   ('ע', 70), ('ס', 60), ('נ', 50), ('מ', 40), ('ל', 30), ('כ', 20),
   ('י', 10), ('ט', 9), ('ח', 8), ('ז', 7), ('ו', 6), ('ה', 5),
   ('ד', 4), ('ג', 3), ('ב', 2), ('א', 1)]

/-- The nested loops of `hebrew_numeral`: the outer `for` walks the value
table, the inner `while n >= value` greedily subtracts.  The guard
`0 < value` makes termination evident; every entry of the actual table is
positive, so it never changes behaviour on the real input. -/
def hebAux : List (Char × Nat) → Nat → EcoString → EcoString
  | [], _, fmt => fmt
  | (name, value) :: rest, n, fmt =>
    if h : 0 < value ∧ value ≤ n then
      if n = 15 then fmt ++ "ט״ו".data
      else if n = 16 then fmt ++ "ט״ז".data
      else
        hebAux ((name, value) :: rest) (n - value)
          (fmt ++ (if n = value ∧ fmt ≠ [] then ['״'] else [])
               ++ [name]
               ++ (if n = value ∧ fmt = [] then ['׳'] else []))
    else hebAux rest n fmt
termination_by table n _ => (n, table.length)
decreasing_by
  · exact Prod.Lex.left _ _ (by omega)
  · exact Prod.Lex.right _ (by simp)

/-- `hebrew_numeral`: stringify an integer to a Hebrew number. -/
def hebrew_numeral (n : Nat) : EcoString :=
  if n = 0 then ['-'] else hebAux hebrewTable n []

/-- The descending Roman value table from `roman_numeral`. -/
def romanTable : List (EcoString × Nat) :=
  [("M̅".data, 1000000), ("D̅".data, 500000), ("C̅".data, 100000),
   ("L̅".data, 50000), ("X̅".data, 10000), ("V̅".data, 5000),
   ("I̅V̅".data, 4000), ("M".data, 1000), ("CM".data, 900), ("D".data, 500),
   ("CD".data, 400), ("C".data, 100), ("XC".data, 90), ("L".data, 50),
   ("XL".data, 40), ("X".data, 10), ("IX".data, 9), ("V".data, 5),
   ("IV".data, 4), ("I".data, 1)]

/-- Per-character case folding of a Roman symbol name.  The table's
characters are ASCII letters and the combining overline U+0305, on which
Rust's `char::to_lowercase` agrees with `Char.toLower` (ASCII letters are
lowered, the combining mark is left unchanged). -/
def foldCase (case : Case) (s : EcoString) : EcoString :=
  match case with
  | .Lower => s.map Char.toLower
  | .Upper => s

/-- The greedy loop of `roman_numeral`: for each table entry, subtract its
value while it fits, emitting its (case-folded) name.  As in `hebAux`, the
`0 < value` guard only makes termination evident. -/
def romanAux (case : Case) : List (EcoString × Nat) → Nat → EcoString
  | [], _ => []
  | (name, value) :: rest, n =>
    if h : 0 < value ∧ value ≤ n then
      foldCase case name ++ romanAux case ((name, value) :: rest) (n - value)
    else romanAux case rest n
termination_by table n => (n, table.length)
decreasing_by
  · exact Prod.Lex.left _ _ (by omega)
  · exact Prod.Lex.right _ (by simp)

/-- `roman_numeral`: stringify an integer to a Roman numeral. -/
def roman_numeral (n : Nat) (case : Case) : EcoString :=
  if n = 0 then
    match case with
    | .Lower => ['n']
    | .Upper => ['N']
  else romanAux case romanTable n

/-- The `thousands` table of `greek_numeral` as (lowercase, uppercase). -/
def greekThousands : List (EcoString × EcoString) :=
  [("͵α".data, "͵Α".data), ("͵β".data, "͵Β".data), ("͵γ".data, "͵Γ".data),
   ("͵δ".data, "͵Δ".data), ("͵ε".data, "͵Ε".data), ("͵ϛ".data, "͵Ϛ".data),
   ("͵ζ".data, "͵Ζ".data), ("͵η".data, "͵Η".data), ("͵θ".data, "͵Θ".data)]

/-- The `hundreds` table of `greek_numeral`. -/
def greekHundreds : List (EcoString × EcoString) :=
  [("ρ".data, "Ρ".data), ("σ".data, "Σ".data), ("τ".data, "Τ".data),
   ("υ".data, "Υ".data), ("φ".data, "Φ".data), ("χ".data, "Χ".data),
   ("ψ".data, "Ψ".data), ("ω".data, "Ω".data), ("ϡ".data, "Ϡ".data)]

/-- The `tens` table of `greek_numeral`. -/
def greekTens : List (EcoString × EcoString) :=
  [("ι".data, "Ι".data), ("κ".data, "Κ".data), ("λ".data, "Λ".data),
   ("μ".data, "Μ".data), ("ν".data, "Ν".data), ("ξ".data, "Ξ".data),
   ("ο".data, "Ο".data), ("π".data, "Π".data), ("ϙ".data, "Ϟ".data)]

/-- The `ones` table of `greek_numeral`. -/
def greekOnes : List (EcoString × EcoString) :=
  [("α".data, "Α".data), ("β".data, "Β".data), ("γ".data, "Γ".data),
   ("δ".data, "Δ".data), ("ε".data, "Ε".data), ("ϛ".data, "Ϛ".data),
   ("ζ".data, "Ζ".data), ("η".data, "Η".data), ("θ".data, "Θ".data)]

/-- Select the digit glyph for a `Case`, mirroring the `[case]` index
(`0` = lower, `1` = upper) in `greek_numeral`. -/
def sel (case : Case) (p : EcoString × EcoString) : EcoString :=
  match case with
  | .Lower => p.1
  | .Upper => p.2

/-- The base-10 digit extraction loop of `greek_numeral` (and the shape of
the loops in `decimal`): least-significant digit first. -/
def decDigits (n : Nat) : List Nat :=
  if n = 0 then [] else n % 10 :: decDigits (n / 10)
termination_by n
decreasing_by exact Nat.div_lt_self (by omega) (by omega)

/-- The padding loop of `greek_numeral`: append zeros until the digit
count is a multiple of 4 (here in closed form). -/
def pad4 (l : List Nat) : List Nat :=
  l ++ List.replicate ((4 - l.length % 4) % 4) 0

/-- The body of `greek_numeral`'s per-chunk emission for a non-zero chunk
`[th, h, t, o]` (most significant first): optional `", "` separator,
optional myriad prefix (`get_m_prefix` plus `"Μ"`), the four digit glyphs,
and the trailing keraia when the chunk has no thousands digit.  `mp` is
the already-decremented `m_power`. -/
def renderChunk (case : Case) (mp : Nat) (prev : Bool) (th h t o : Nat) :
    EcoString :=
  (if prev then ", ".data else [])
    ++ (if mp = 0 then [] else (greekOnes.getD (mp - 1) ([], [])).1 ++ "Μ".data)
    ++ (if th = 0 then [] else sel case (greekThousands.getD (th - 1) ([], [])))
    ++ (if h = 0 then [] else sel case (greekHundreds.getD (h - 1) ([], [])))
    ++ (if t = 0 then [] else sel case (greekTens.getD (t - 1) ([], [])))
    ++ (if o = 0 then [] else sel case (greekOnes.getD (o - 1) ([], [])))
    ++ (if th = 0 then "ʹ".data else [])

/-- The `chunks_exact(4)` loop of `greek_numeral`: all-zero chunks are
skipped, non-zero chunks are rendered by `renderChunk`; `m_power` is
saturating-decremented per chunk and `prev` tracks
`previous_has_number`.  A trailing group shorter than 4 is ignored, as
`chunks_exact` does (it never occurs after padding). -/
def greekChunks (case : Case) : Nat → Bool → List Nat → EcoString
  | mPower, prev, th :: h :: t :: o :: rest =>
    if th + h + t + o = 0 then greekChunks case (mPower - 1) prev rest
    else
      renderChunk case (mPower - 1) prev th h t o
        ++ greekChunks case (mPower - 1) true rest
  | _, _, _ => []

/-- `greek_numeral`: stringify an integer to Greek numbers (`m_power`
starts at the padded digit count divided by 4). -/
def greek_numeral (n : Nat) (case : Case) : EcoString :=
  if n = 0 then ['𐆊']
  else
    greekChunks case ((pad4 (decDigits n)).reverse.length / 4) false
      (pad4 (decDigits n)).reverse

/-- The value of the lowest non-zero base-10000 chunk of `n` (0 when
`n = 0`): the chunk that `greek_numeral` renders last, since all-zero
chunks are skipped.  Used only to state the amended keraia-placement
rule of the Greek converter. -/
def lowNonzeroChunk (n : Nat) : Nat :=
  if n = 0 then 0
  else if n % 10000 = 0 then lowNonzeroChunk (n / 10000)
  else n % 10000
termination_by n
decreasing_by exact Nat.div_lt_self (by omega) (by omega)

/-- The digit loop of `zeroless`: after the `n -= 1` the argument is the
predecessor, so the pattern `n+1` matches the loop guard `n > 0`. -/
def zerolessAux (alphabet : List Char) : Nat → EcoString
  | 0 => []
  | n + 1 =>
    alphabet.getD ((n % alphabet.length)) 'a' :: zerolessAux alphabet (n / alphabet.length)
termination_by n => n
decreasing_by exact Nat.lt_succ_of_le (Nat.div_le_self _ _)

/-- `zeroless`: stringify a number using a base-N counting system with no
zero digit (the digits are collected least-significant first and
reversed, as in the Rust loop). -/
def zeroless (alphabet : List Char) (n : Nat) : EcoString :=
  if n = 0 then ['-'] else (zerolessAux alphabet n).reverse

/-- The digit loop of `decimal`: push `start + (n % 10)` while `n > 0`. -/
def decimalAux (start : Char) (n : Nat) : EcoString :=
  if n = 0 then []
  else Char.ofNat (start.toNat + n % 10) :: decimalAux start (n / 10)
termination_by n
decreasing_by exact Nat.div_lt_self (by omega) (by omega)

/-- `decimal`: stringify a number using a base-10 counting system whose
digits occupy contiguous codepoints starting at `start`. -/
def decimal (start : Char) (n : Nat) : EcoString :=
  if n = 0 then [start] else (decimalAux start n).reverse

/-- The `SYMBOLS` array of the `Symbol` branch of `NumberingKind::apply`. -/
def symbolMarks : List Char := ['*', '†', '‡', '§', '¶', '‖']

/-- Modelled from the spec: the Chinese conversions delegate to the
external `chinese_number` crate (`from_u64_to_chinese_ten_thousand`),
whose source is not part of this repository; the spec records only that
every kind's conversion is a pure total `integer → string` function and
specifies no output for the Chinese kinds, so we model it as an
unspecified total function of the variant, case, and number. -/
def u64_to_chinese (_traditional : Bool) (_upper : Bool) (_n : Nat) :
    EcoString :=
  []

/-- The lowercase Latin alphabet of `NumberingKind::apply`. -/
def lowerLatinAlphabet : List Char :=
  ['a', 'b', 'c', 'd', 'e', 'f', 'g', 'h', 'i', 'j', 'k', 'l', 'm', 'n',
   'o', 'p', 'q', 'r', 's', 't', 'u', 'v', 'w', 'x', 'y', 'z']

/-- The uppercase Latin alphabet of `NumberingKind::apply`. -/
def upperLatinAlphabet : List Char :=
  ['A', 'B', 'C', 'D', 'E', 'F', 'G', 'H', 'I', 'J', 'K', 'L', 'M', 'N',
   'O', 'P', 'Q', 'R', 'S', 'T', 'U', 'V', 'W', 'X', 'Y', 'Z']

/-- The gojūon-order hiragana alphabet of `NumberingKind::apply`. -/
def hiraganaAiueoAlphabet : List Char :=
  ['あ', 'い', 'う', 'え', 'お', 'か', 'き', 'く', 'け', 'こ', 'さ',
   'し', 'す', 'せ', 'そ', 'た', 'ち', 'つ', 'て', 'と', 'な', 'に',
   'ぬ', 'ね', 'の', 'は', 'ひ', 'ふ', 'へ', 'ほ', 'ま', 'み', 'む',
   'め', 'も', 'や', 'ゆ', 'よ', 'ら', 'り', 'る', 'れ', 'ろ', 'わ',
   'を', 'ん']

/-- The iroha-order hiragana alphabet of `NumberingKind::apply`. -/
def hiraganaIrohaAlphabet : List Char :=
  ['い', 'ろ', 'は', 'に', 'ほ', 'へ', 'と', 'ち', 'り', 'ぬ', 'る',
   'を', 'わ', 'か', 'よ', 'た', 'れ', 'そ', 'つ', 'ね', 'な', 'ら',
   'む', 'う', 'ゐ', 'の', 'お', 'く', 'や', 'ま', 'け', 'ふ', 'こ',
   'え', 'て', 'あ', 'さ', 'き', 'ゆ', 'め', 'み', 'し', 'ゑ', 'ひ',
   'も', 'せ', 'す']

/-- The gojūon-order katakana alphabet of `NumberingKind::apply`. -/
def katakanaAiueoAlphabet : List Char :=
  ['ア', 'イ', 'ウ', 'エ', 'オ', 'カ', 'キ', 'ク', 'ケ', 'コ', 'サ',
   'シ', 'ス', 'セ', 'ソ', 'タ', 'チ', 'ツ', 'テ', 'ト', 'ナ', 'ニ',
   'ヌ', 'ネ', 'ノ', 'ハ', 'ヒ', 'フ', 'ヘ', 'ホ', 'マ', 'ミ', 'ム',
   'メ', 'モ', 'ヤ', 'ユ', 'ヨ', 'ラ', 'リ', 'ル', 'レ', 'ロ', 'ワ',
   'ヲ', 'ン']

/-- The iroha-order katakana alphabet of `NumberingKind::apply`. -/
def katakanaIrohaAlphabet : List Char :=
  ['イ', 'ロ', 'ハ', 'ニ', 'ホ', 'ヘ', 'ト', 'チ', 'リ', 'ヌ', 'ル',
   'ヲ', 'ワ', 'カ', 'ヨ', 'タ', 'レ', 'ソ', 'ツ', 'ネ', 'ナ', 'ラ',
   'ム', 'ウ', 'ヰ', 'ノ', 'オ', 'ク', 'ヤ', 'マ', 'ケ', 'フ', 'コ',
   'エ', 'テ', 'ア', 'サ', 'キ', 'ユ', 'メ', 'ミ', 'シ', 'ヱ', 'ヒ',
   'モ', 'セ', 'ス']

/-- The Korean jamo alphabet of `NumberingKind::apply`. -/
def koreanJamoAlphabet : List Char :=
  ['ㄱ', 'ㄴ', 'ㄷ', 'ㄹ', 'ㅁ', 'ㅂ', 'ㅅ', 'ㅇ', 'ㅈ', 'ㅊ', 'ㅋ',
   'ㅌ', 'ㅍ', 'ㅎ']

/-- The Korean syllable alphabet of `NumberingKind::apply`. -/
def koreanSyllableAlphabet : List Char :=
  ['가', '나', '다', '라', '마', '바', '사', '아', '자', '차', '카',
   '타', '파', '하']

/-- The Bengali letter alphabet of `NumberingKind::apply`. -/
def bengaliLetterAlphabet : List Char :=
  ['ক', 'খ', 'গ', 'ঘ', 'ঙ', 'চ', 'ছ', 'জ', 'ঝ', 'ঞ', 'ট', 'ঠ', 'ড', 'ঢ',
   'ণ', 'ত', 'থ', 'দ', 'ধ', 'ন', 'প', 'ফ', 'ব', 'ভ', 'ম', 'য', 'র', 'ল',
   'শ', 'ষ', 'স', 'হ']

/-- The circled-number alphabet of `NumberingKind::apply`. -/
def circledNumberAlphabet : List Char :=
  ['①', '②', '③', '④', '⑤', '⑥', '⑦', '⑧', '⑨', '⑩', '⑪', '⑫', '⑬', '⑭',
   '⑮', '⑯', '⑰', '⑱', '⑲', '⑳', '㉑', '㉒', '㉓', '㉔', '㉕', '㉖',
   '㉗', '㉘', '㉙', '㉚', '㉛', '㉜', '㉝', '㉞', '㉟', '㊱', '㊲',
   '㊳', '㊴', '㊵', '㊶', '㊷', '㊸', '㊹', '㊺', '㊻', '㊼', '㊽',
   '㊾', '㊿']

/-- The double-circled-number alphabet of `NumberingKind::apply`. -/
def doubleCircledNumberAlphabet : List Char :=
  ['⓵', '⓶', '⓷', '⓸', '⓹', '⓺', '⓻', '⓼', '⓽', '⓾']

/-- `NumberingKind::apply`: apply the numbering to the given number.
`Arabic` formats the number in decimal (`eco_format!` on a `u64`), here
via `Nat.repr`. -/
def NumberingKind.apply (k : NumberingKind) (n : Nat) : EcoString :=
  match k with
  | .Arabic => (Nat.repr n).data
  | .LowerRoman => roman_numeral n Case.Lower
  | .UpperRoman => roman_numeral n Case.Upper
  | .LowerGreek => greek_numeral n Case.Lower
  | .UpperGreek => greek_numeral n Case.Upper
  | .Symbol =>
    if n = 0 then ['-']
    else
      List.replicate ((n - 1) / symbolMarks.length + 1)
        (symbolMarks.getD ((n - 1) % symbolMarks.length) '*')
  | .Hebrew => hebrew_numeral n
  | .LowerLatin => zeroless lowerLatinAlphabet n
  | .UpperLatin => zeroless upperLatinAlphabet n
  | .HiraganaAiueo => zeroless hiraganaAiueoAlphabet n
  | .HiraganaIroha => zeroless hiraganaIrohaAlphabet n
  | .KatakanaAiueo => zeroless katakanaAiueoAlphabet n
  | .KatakanaIroha => zeroless katakanaIrohaAlphabet n
  | .KoreanJamo => zeroless koreanJamoAlphabet n
  | .KoreanSyllable => zeroless koreanSyllableAlphabet n
  | .BengaliLetter => zeroless bengaliLetterAlphabet n
  | .CircledNumber => zeroless circledNumberAlphabet n
  | .DoubleCircledNumber => zeroless doubleCircledNumberAlphabet n
  | .LowerSimplifiedChinese => u64_to_chinese false false n
  | .UpperSimplifiedChinese => u64_to_chinese false true n
  | .LowerTraditionalChinese => u64_to_chinese true false n
  | .UpperTraditionalChinese => u64_to_chinese true true n
  | .EasternArabic => decimal '٠' n
  | .EasternArabicPersian => decimal '۰' n
  | .DevanagariNumber => decimal '०' n
  | .BengaliNumber => decimal '০' n

/-- The `NumberingPattern` struct: pieces (prefix, kind), suffix, and the
private `trimmed` flag. -/
structure NumberingPattern where
  pieces : List (EcoString × NumberingKind)
  suffix : EcoString
  trimmed : Bool
deriving DecidableEq, Repr

/-- The first loop of `NumberingPattern::apply`: pair pieces with numbers
positionally (stopping at the shorter list, as `zip` does), suppressing
the prefix when `i = 0` and the pattern is trimmed.  `i` is the
`enumerate` index. -/
def applyMain (trimmed : Bool) :
    List (EcoString × NumberingKind) → List Nat → Nat → EcoString
  | (pre, kind) :: ps, n :: ns, i =>
    (if 0 < i ∨ trimmed = false then pre else [])
      ++ kind.apply n ++ applyMain trimmed ps ns (i + 1)
  | _, _, _ => []

/-- `NumberingPattern::apply`: the zipped main loop, then the repeat loop
cycling the last piece over the remaining numbers (with the suffix as
fallback separator when the last prefix is empty; no repeats happen when
there is no last piece, since cycling an empty iterator yields nothing),
then the suffix unless trimmed. -/
def NumberingPattern.apply (p : NumberingPattern) (numbers : List Nat) :
    EcoString :=
  applyMain p.trimmed p.pieces numbers 0
    ++ (match p.pieces.getLast? with
        | none => []
        | some (pre, kind) =>
          ((numbers.drop p.pieces.length).map
              (fun n => (if pre = [] then p.suffix else pre) ++ kind.apply n)).flatten)
    ++ (if p.trimmed then [] else p.suffix)

/-- `NumberingPattern::apply_kth`: the first piece's prefix (if any), then
the kind of `pieces.iter().chain(pieces.last().cycle()).nth(k)` applied
to the number, then the suffix — with no `trimmed` check anywhere. -/
def NumberingPattern.apply_kth (p : NumberingPattern) (k : Nat)
    (number : Nat) : EcoString :=
  (match p.pieces.head? with
   | none => []
   | some pk => pk.1)
    ++ (match (if k < p.pieces.length then p.pieces[k]? else p.pieces.getLast?) with
        | none => []
        | some pk => pk.2.apply number)
    ++ p.suffix

/-- The scanning loop of `NumberingPattern::from_str`: walk the text by
character, accumulating the prefix since the last counting symbol; a
counting symbol closes a piece, the leftover becomes the suffix.  (The
Rust code slices by byte index, always at character boundaries, which is
exactly this character-level scan.) -/
def scan : EcoString → EcoString →
    List (EcoString × NumberingKind) × EcoString
  | pre, [] => ([], pre)
  | pre, c :: rest =>
    match NumberingKind.from_char c with
    | some kind =>
      let r := scan [] rest
      ((pre, kind) :: r.1, r.2)
    | none => scan (pre ++ [c]) rest

/-- `NumberingPattern::from_str`: fails with `"invalid numbering pattern"`
iff the scan produced zero pieces. -/
def NumberingPattern.from_str (s : EcoString) :
    Except String NumberingPattern :=
  if (scan [] s).1 = [] then .error "invalid numbering pattern"
  else .ok ⟨(scan [] s).1, (scan [] s).2, false⟩

/-- The `cast!` serializer of `NumberingPattern`: every prefix followed by
its kind's representative character, then the suffix. -/
def NumberingPattern.serialize (p : NumberingPattern) : EcoString :=
  (p.pieces.map (fun pk => pk.1 ++ [pk.2.to_char])).flatten ++ p.suffix

/-- From the spec's words (§4.3): pair numbers with pieces positionally up
to `min(len pieces, len numbers)` (which is what `zip` does), emitting
each piece's prefix — but suppressing the very first piece's prefix when
trimmed — and the piece's kind applied to its number; then, for every
remaining number, repeat the last piece's kind, preceded by the last
piece's prefix when non-empty and otherwise by the suffix text as
fallback separator; finally append the suffix once unless trimmed.  Used
as the reference against which `NumberingPattern.apply` is compared. -/
def applySpec (p : NumberingPattern) (numbers : List Nat) : EcoString :=
  let last := p.pieces.getLastD ([], .Arabic)
  let sep := if last.1 = [] then p.suffix else last.1
  (match p.pieces.zip numbers with
   | [] => []
   | (pc, n) :: rest =>
     (if p.trimmed then [] else pc.1) ++ pc.2.apply n
       ++ (rest.map (fun y => y.1.1 ++ y.1.2.apply y.2)).flatten)
    ++ ((numbers.drop p.pieces.length).map
        (fun n => sep ++ last.2.apply n)).flatten
    ++ (if p.trimmed then [] else p.suffix)

/-! ## Pattern formatter lemmas -/

theorem applyMain_pos (t : Bool) :
    ∀ (ps : List (EcoString × NumberingKind)) (ns : List Nat) (i : Nat),
      0 < i →
      applyMain t ps ns i
        = ((ps.zip ns).map (fun y => y.1.1 ++ y.1.2.apply y.2)).flatten := by
  intro ps
  induction ps with
  | nil => intro ns i _; cases ns <;> simp [applyMain]
  | cons pc ps ih =>
    intro ns i hi
    cases ns with
    | nil => simp [applyMain]
    | cons n ns =>
      obtain ⟨pre, kind⟩ := pc
      simp [applyMain, hi, ih ns (i + 1) (by omega)]

theorem apply_eq_applySpec (p : NumberingPattern) (hp : p.pieces ≠ [])
    (ns : List Nat) : p.apply ns = applySpec p ns := by
  obtain ⟨l, hl⟩ : ∃ l, p.pieces.getLast? = some l := by
    cases h : p.pieces.getLast? with
    | none => exact absurd (List.getLast?_eq_none_iff.mp h) hp
    | some l => exact ⟨l, rfl⟩
  unfold NumberingPattern.apply applySpec
  rw [hl, List.getLastD_eq_getLast?, hl]
  obtain ⟨pre, kind⟩ := l
  cases hps : p.pieces with
  | nil => exact absurd hps hp
  | cons pc ps' =>
    cases ns with
    | nil => simp [applyMain]
    | cons n ns' =>
      obtain ⟨pre0, kind0⟩ := pc
      cases ht : p.trimmed <;>
        simp [applyMain, applyMain_pos, ht]

theorem applyMain_take (t : Bool) :
    ∀ (ps : List (EcoString × NumberingKind)) (ns : List Nat) (i : Nat),
      applyMain t ps ns i = applyMain t (ps.take ns.length) ns i := by
  intro ps
  induction ps with
  | nil => intro ns i; cases ns <;> rfl
  | cons pc ps ih =>
    intro ns i
    cases ns with
    | nil => rfl
    | cons n ns =>
      obtain ⟨pre, kind⟩ := pc
      simp only [applyMain, List.length_cons, List.take_succ_cons]
      rw [ih ns (i + 1)]

/-- C1: for every pattern and a list of numbers longer than its pieces,
`NumberingPattern::apply` pairs the first `len(pieces)` numbers with the
pieces positionally and then, for every remaining number, repeats the
last piece's kind, emitting before each repeated number the last piece's
prefix if non-empty and otherwise the pattern's suffix text, and finally
(when not trimmed) appends the suffix once (`applySpec` is this
description verbatim); in particular the pattern parsed from `"1.1)"`
applied to `[1,2,3]` yields `"1.2.3)"`. -/
theorem apply_repeat_spec :
    (∀ (p : NumberingPattern) (ns : List Nat), p.pieces ≠ [] →
        p.pieces.length < ns.length → p.apply ns = applySpec p ns)
    ∧ ∀ p, NumberingPattern.from_str ("1.1)").data = .ok p →
        p.apply [1, 2, 3] = ("1.2.3)").data := by
  constructor
  · intro p ns hp _
    exact apply_eq_applySpec p hp ns
  · intro p hp
    have h2 : NumberingPattern.from_str ("1.1)").data
        = .ok (⟨[([], .Arabic), (['.'], .Arabic)], [')'], false⟩ :
            NumberingPattern) := rfl
    rw [h2] at hp
    injection hp with h
    subst h
    rfl

/-- Witness for C1 at the concrete scenario from the spec. -/
theorem apply_repeat_spec_witness :
    NumberingPattern.apply
        ⟨[([], .Arabic), (['.'], .Arabic)], [')'], false⟩ [1, 2, 3]
      = ("1.2.3)").data :=
  apply_repeat_spec.2 _ rfl

/-- C8: `apply` and `apply_kth` are total (they yield a string on every
input, including zero values, empty lists, excess numbers and any index),
and when fewer numbers than pieces are supplied the unconsumed trailing
pieces are silently omitted: the result is that of the pattern truncated
to the first `len(numbers)` pieces. -/
theorem apply_total_and_truncates :
    (∀ (p : NumberingPattern) (ns : List Nat), ∃ s, p.apply ns = s)
    ∧ (∀ (p : NumberingPattern) (k n : Nat), ∃ s, p.apply_kth k n = s)
    ∧ ∀ (p : NumberingPattern) (ns : List Nat),
        ns.length ≤ p.pieces.length →
        p.apply ns
          = NumberingPattern.apply
              ⟨p.pieces.take ns.length, p.suffix, p.trimmed⟩ ns := by
  refine ⟨fun p ns => ⟨_, rfl⟩, fun p k n => ⟨_, rfl⟩, ?_⟩
  intro p ns h
  have h1 : ns.drop p.pieces.length = [] := List.drop_eq_nil_of_le h
  have hmin : ns.length ⊓ p.pieces.length = ns.length := min_eq_left h
  unfold NumberingPattern.apply
  rw [← applyMain_take]
  cases hg : p.pieces.getLast? with
  | none =>
    have hnil : p.pieces = [] := List.getLast?_eq_none_iff.mp hg
    simp [hnil]
  | some l =>
    cases hg2 : (p.pieces.take ns.length).getLast? with
    | none => simp [h1, hmin]
    | some l2 => simp [h1, hmin]

/-- Witness for C8: one fewer number than pieces, the trailing piece is
silently dropped. -/
theorem apply_total_and_truncates_witness :
    NumberingPattern.apply
        ⟨[([], .Arabic), (['.'], .Arabic)], [')'], false⟩ [7]
      = NumberingPattern.apply ⟨[([], .Arabic)], [')'], false⟩ [7] :=
  apply_total_and_truncates.2.2 _ [7] (by decide)

/-- C9: `apply_kth` emits the first piece's prefix (with no `trimmed`
check), then the kind at position `k` — the last piece's kind whenever
`k` is at least the piece count, which is what `getD` with the last piece
as default computes — applied to the number, then the suffix (again with
no `trimmed` check); in particular the pattern parsed from `"1.1)"` with
`k = 1` and number 5 gives `"5)"`. -/
theorem apply_kth_spec :
    (∀ (p : NumberingPattern) (k n : Nat)
        (first lastpk : EcoString × NumberingKind),
        p.pieces.head? = some first → p.pieces.getLast? = some lastpk →
        p.apply_kth k n
          = first.1 ++ (p.pieces.getD k lastpk).2.apply n ++ p.suffix)
    ∧ ∀ p, NumberingPattern.from_str ("1.1)").data = .ok p →
        p.apply_kth 1 5 = ("5)").data := by
  constructor
  · intro p k n first lastpk h1 h2
    unfold NumberingPattern.apply_kth
    rw [h1]
    by_cases hk : k < p.pieces.length
    · rw [if_pos hk]
      simp [List.getElem?_eq_getElem hk, List.getD_eq_getElem?_getD,
        List.getElem?_eq_getElem hk]
    · rw [if_neg hk, h2]
      have hnone : p.pieces[k]? = none := List.getElem?_eq_none (by omega)
      have : p.pieces.getD k lastpk = lastpk := by
        rw [List.getD_eq_getElem?_getD, hnone]
        rfl
      rw [this]
  · intro p hp
    have h2 : NumberingPattern.from_str ("1.1)").data
        = .ok (⟨[([], .Arabic), (['.'], .Arabic)], [')'], false⟩ :
            NumberingPattern) := rfl
    rw [h2] at hp
    injection hp with h
    subst h
    rfl

/-- Witness for C9 at the spec's scenario. -/
theorem apply_kth_spec_witness :
    NumberingPattern.apply_kth
        ⟨[([], .Arabic), (['.'], .Arabic)], [')'], false⟩ 1 5
      = ("5)").data :=
  apply_kth_spec.2 _ rfl

/-- C10: on a trimmed pattern whose last piece's prefix is empty, applied
to more numbers than pieces, the suffix text is still emitted as the
fallback separator before each repeated number (and at least one repeat
occurs), even though trimming suppresses the one trailing suffix. -/
theorem apply_trimmed_suffix_separator
    (p : NumberingPattern) (ns : List Nat) (kind : NumberingKind)
    (htr : p.trimmed = true) (hl : p.pieces.getLast? = some ([], kind))
    (hlen : p.pieces.length < ns.length) :
    ns.drop p.pieces.length ≠ []
    ∧ p.apply ns
        = applyMain true p.pieces ns 0
          ++ ((ns.drop p.pieces.length).map
              (fun n => p.suffix ++ kind.apply n)).flatten := by
  constructor
  · intro hc
    rw [List.drop_eq_nil_iff] at hc
    omega
  · unfold NumberingPattern.apply
    rw [hl, htr]
    simp

/-- Witness for C10: trimmed pattern from `"1.1"` applied to `[3,4,5]`
keeps `"."`-less fallback separators. -/
theorem apply_trimmed_suffix_separator_witness :
    List.drop (NumberingPattern.pieces
        ⟨[([], NumberingKind.Arabic)], ['-'], true⟩).length [3, 4, 5] ≠ []
    ∧ NumberingPattern.apply ⟨[([], NumberingKind.Arabic)], ['-'], true⟩ [3, 4, 5]
        = applyMain true [([], NumberingKind.Arabic)] [3, 4, 5] 0
          ++ (([4, 5] : List Nat).map
              (fun n => ['-'] ++ NumberingKind.apply .Arabic n)).flatten :=
  apply_trimmed_suffix_separator
    ⟨[([], NumberingKind.Arabic)], ['-'], true⟩ [3, 4, 5] .Arabic rfl rfl
    (by decide)

/-! ## Pattern compiler lemmas -/

theorem scan_fst_nil_iff :
    ∀ (s pre : EcoString),
      (scan pre s).1 = [] ↔ ∀ c ∈ s, NumberingKind.from_char c = none := by
  intro s
  induction s with
  | nil => intro pre; simp [scan]
  | cons c rest ih =>
    intro pre
    cases hc : NumberingKind.from_char c with
    | some kind => simp [scan, hc]
    | none => simp [scan, hc, ih]

/-- C7: parsing fails — with the error `"invalid numbering pattern"` —
iff the string contains no recognizable counting character (equivalently,
zero pieces are produced); every string with at least one representative
character parses successfully; in particular `"##"` fails. -/
theorem from_str_fails_iff_no_counting :
    (∀ s : EcoString,
        NumberingPattern.from_str s = .error "invalid numbering pattern"
          ↔ ∀ c ∈ s, NumberingKind.from_char c = none)
    ∧ NumberingPattern.from_str ("##").data
        = .error "invalid numbering pattern" := by
  constructor
  · intro s
    unfold NumberingPattern.from_str
    by_cases h : (scan [] s).1 = []
    · rw [if_pos h]
      exact ⟨fun _ => (scan_fst_nil_iff s []).mp h, fun _ => rfl⟩
    · rw [if_neg h]
      constructor
      · intro he
        exact Except.noConfusion he
      · intro hall
        exact absurd ((scan_fst_nil_iff s []).mpr hall) h
  · rfl

/-- Witness for C7: a string with a counting character does parse. -/
theorem from_str_fails_iff_no_counting_witness :
    ¬(NumberingPattern.from_str ("a").data
        = .error "invalid numbering pattern") :=
  fun h => by
    have := (from_str_fails_iff_no_counting.1 ("a").data).mp h 'a' (by decide)
    exact absurd this (by decide)

theorem from_char_to_char (c : Char) (k : NumberingKind)
    (h : NumberingKind.from_char c = some k) : NumberingKind.to_char k = c := by
  unfold NumberingKind.from_char at h
  split at h <;>
    first
      | (injection h with he
         subst he
         rfl)
      | exact Option.noConfusion h

theorem scan_invariant :
    ∀ (s pre : EcoString), (∀ c ∈ pre, NumberingKind.from_char c = none) →
      (∀ pk ∈ (scan pre s).1,
          (∀ c ∈ pk.1, NumberingKind.from_char c = none)
          ∧ ∃ c, NumberingKind.from_char c = some pk.2)
      ∧ ∀ c ∈ (scan pre s).2, NumberingKind.from_char c = none := by
  intro s
  induction s with
  | nil =>
    intro pre hpre
    exact ⟨by simp [scan], by simpa [scan] using hpre⟩
  | cons c rest ih =>
    intro pre hpre
    cases hc : NumberingKind.from_char c with
    | some kind =>
      have hrec := ih [] (by simp)
      constructor
      · intro pk hpk
        simp only [scan, hc, List.mem_cons] at hpk
        rcases hpk with hpk | hpk
        · subst hpk
          exact ⟨hpre, ⟨c, hc⟩⟩
        · exact hrec.1 pk hpk
      · intro x hx
        simp only [scan, hc] at hx
        exact hrec.2 x hx
    | none =>
      have hnext : ∀ x ∈ pre ++ [c], NumberingKind.from_char x = none := by
        intro x hx
        rcases List.mem_append.mp hx with hx | hx
        · exact hpre x hx
        · rw [List.mem_singleton.mp hx]
          exact hc
      have hrec := ih (pre ++ [c]) hnext
      constructor
      · intro pk hpk
        simp only [scan, hc] at hpk
        exact hrec.1 pk hpk
      · intro x hx
        simp only [scan, hc] at hx
        exact hrec.2 x hx

theorem scan_append_nonCounting :
    ∀ (l pre rest : EcoString),
      (∀ c ∈ l, NumberingKind.from_char c = none) →
      scan pre (l ++ rest) = scan (pre ++ l) rest := by
  intro l
  induction l with
  | nil => intro pre rest _; simp
  | cons c l ih =>
    intro pre rest hl
    have hc : NumberingKind.from_char c = none := hl c (by simp)
    calc scan pre ((c :: l) ++ rest)
        = scan (pre ++ [c]) (l ++ rest) := by simp [scan, hc]
      _ = scan ((pre ++ [c]) ++ l) rest :=
          ih _ _ (fun x hx => hl x (List.mem_cons_of_mem _ hx))
      _ = scan (pre ++ (c :: l)) rest := by simp

theorem scan_serialize :
    ∀ (pieces : List (EcoString × NumberingKind)) (suffix : EcoString),
      (∀ pk ∈ pieces,
          (∀ c ∈ pk.1, NumberingKind.from_char c = none)
          ∧ NumberingKind.from_char pk.2.to_char = some pk.2) →
      (∀ c ∈ suffix, NumberingKind.from_char c = none) →
      scan [] ((pieces.map (fun pk => pk.1 ++ [pk.2.to_char])).flatten ++ suffix)
        = (pieces, suffix) := by
  intro pieces
  induction pieces with
  | nil =>
    intro suffix _ hsuf
    have := scan_append_nonCounting suffix [] [] hsuf
    simpa [scan] using this
  | cons pk pieces ih =>
    intro suffix hp hsuf
    obtain ⟨pre, kind⟩ := pk
    have h1 : ∀ c ∈ pre, NumberingKind.from_char c = none :=
      (hp (pre, kind) (by simp)).1
    have h2 : NumberingKind.from_char kind.to_char = some kind :=
      (hp (pre, kind) (by simp)).2
    have hrest := ih suffix (fun x hx => hp x (List.mem_cons_of_mem _ hx)) hsuf
    calc scan []
          ((((pre, kind) :: pieces).map
              (fun pk => pk.1 ++ [pk.2.to_char])).flatten ++ suffix)
        = scan pre
            (kind.to_char ::
              ((pieces.map (fun pk => pk.1 ++ [pk.2.to_char])).flatten
                ++ suffix)) := by
          rw [show (((pre, kind) :: pieces).map
              (fun pk => pk.1 ++ [pk.2.to_char])).flatten ++ suffix
            = pre ++ (kind.to_char ::
                ((pieces.map (fun pk => pk.1 ++ [pk.2.to_char])).flatten
                  ++ suffix)) by simp]
          exact scan_append_nonCounting pre [] _ h1
      _ = ((pre, kind) :: pieces, suffix) := by
          simp [scan, h2, hrest]

/-- C3: for every string that parses successfully, parsing the
serialization of the result reproduces exactly the same pieces and suffix
(indeed the same pattern value), and the parse result never contains the
two Traditional-Chinese kinds, which parsing cannot produce. -/
theorem from_str_serialize_roundtrip :
    ∀ (s : EcoString) (p : NumberingPattern),
      NumberingPattern.from_str s = .ok p →
      NumberingPattern.from_str p.serialize = .ok p
      ∧ ∀ pk ∈ p.pieces,
          pk.2 ≠ NumberingKind.LowerTraditionalChinese
          ∧ pk.2 ≠ NumberingKind.UpperTraditionalChinese := by
  intro s p hp
  unfold NumberingPattern.from_str at hp
  by_cases h : (scan [] s).1 = []
  · rw [if_pos h] at hp
    exact Except.noConfusion hp
  · rw [if_neg h] at hp
    injection hp with hp
    subst hp
    have hinv := scan_invariant s [] (by simp)
    have hk : ∀ pk ∈ (scan [] s).1,
        NumberingKind.from_char pk.2.to_char = some pk.2 := by
      intro pk hpk
      obtain ⟨c, hc⟩ := (hinv.1 pk hpk).2
      rw [from_char_to_char c pk.2 hc]
      exact hc
    constructor
    · unfold NumberingPattern.serialize NumberingPattern.from_str
      rw [scan_serialize (scan [] s).1 (scan [] s).2
        (fun pk hpk => ⟨(hinv.1 pk hpk).1, hk pk hpk⟩) hinv.2]
      simp [h]
    · intro pk hpk
      have hr := hk pk hpk
      constructor
      · intro heq
        rw [heq] at hr
        exact absurd hr (by decide)
      · intro heq
        rw [heq] at hr
        exact absurd hr (by decide)

/-- Witness for C3 at the pattern `"(I)"`. -/
theorem from_str_serialize_roundtrip_witness :
    NumberingPattern.from_str
        (NumberingPattern.serialize ⟨[(['('], .UpperRoman)], [')'], false⟩)
      = .ok ⟨[(['('], .UpperRoman)], [')'], false⟩ :=
  (from_str_serialize_roundtrip ("(I)").data _ rfl).1

/-- C4: `NumberingKind::apply` at 0 is defined for every kind and yields
the documented zero representation: `"-"` for every zeroless bijective
kind, the `Symbol` kind and Hebrew; the zero digit (start codepoint) for
the four positional-decimal kinds; `"n"`/`"N"` for the Roman kinds; and
the Greek zero sign for the Greek kinds. -/
theorem kind_apply_zero_reps :
    (∀ k : NumberingKind, ∃ s, k.apply 0 = s)
    ∧ NumberingKind.apply .LowerLatin 0 = ['-']
    ∧ NumberingKind.apply .UpperLatin 0 = ['-']
    ∧ NumberingKind.apply .HiraganaAiueo 0 = ['-']
    ∧ NumberingKind.apply .HiraganaIroha 0 = ['-']
    ∧ NumberingKind.apply .KatakanaAiueo 0 = ['-']
    ∧ NumberingKind.apply .KatakanaIroha 0 = ['-']
    ∧ NumberingKind.apply .KoreanJamo 0 = ['-']
    ∧ NumberingKind.apply .KoreanSyllable 0 = ['-']
    ∧ NumberingKind.apply .BengaliLetter 0 = ['-']
    ∧ NumberingKind.apply .CircledNumber 0 = ['-']
    ∧ NumberingKind.apply .DoubleCircledNumber 0 = ['-']
    ∧ NumberingKind.apply .Symbol 0 = ['-']
    ∧ NumberingKind.apply .Hebrew 0 = ['-']
    ∧ NumberingKind.apply .EasternArabic 0 = ['٠']
    ∧ NumberingKind.apply .EasternArabicPersian 0 = ['۰']
    ∧ NumberingKind.apply .DevanagariNumber 0 = ['०']
    ∧ NumberingKind.apply .BengaliNumber 0 = ['০']
    ∧ NumberingKind.apply .LowerRoman 0 = ['n']
    ∧ NumberingKind.apply .UpperRoman 0 = ['N']
    ∧ NumberingKind.apply .LowerGreek 0 = ['𐆊']
    ∧ NumberingKind.apply .UpperGreek 0 = ['𐆊'] :=
  ⟨fun k => ⟨_, rfl⟩, rfl, rfl, rfl, rfl, rfl, rfl, rfl, rfl, rfl, rfl,
    rfl, rfl, rfl, rfl, rfl, rfl, rfl, rfl, rfl, rfl, rfl⟩

/-! ## Zeroless injectivity -/

theorem zerolessAux_inj (alphabet : List Char) (hne : alphabet ≠ [])
    (hnd : alphabet.Nodup) :
    ∀ n1 n2 : Nat, zerolessAux alphabet n1 = zerolessAux alphabet n2 →
      n1 = n2 := by
  intro n1
  induction n1 using Nat.strong_induction_on with
  | _ n1 ih =>
    intro n2 h
    cases n1 with
    | zero =>
      cases n2 with
      | zero => rfl
      | succ m2 => exact absurd h.symm (by simp [zerolessAux])
    | succ m1 =>
      cases n2 with
      | zero => exact absurd h (by simp [zerolessAux])
      | succ m2 =>
        simp only [zerolessAux, List.cons.injEq] at h
        obtain ⟨hhead, htail⟩ := h
        have hK : 0 < alphabet.length := List.length_pos.mpr hne
        have h1 : m1 % alphabet.length = m2 % alphabet.length := by
          have e1 : m1 % alphabet.length < alphabet.length := Nat.mod_lt _ hK
          have e2 : m2 % alphabet.length < alphabet.length := Nat.mod_lt _ hK
          rw [List.getD_eq_getElem?_getD, List.getD_eq_getElem?_getD,
            List.getElem?_eq_getElem e1, List.getElem?_eq_getElem e2] at hhead
          simp only [Option.getD_some] at hhead
          exact (List.Nodup.getElem_inj_iff hnd).mp hhead
        have h2 : m1 / alphabet.length = m2 / alphabet.length :=
          ih (m1 / alphabet.length)
            (Nat.lt_succ_of_le (Nat.div_le_self _ _)) _ htail
        have hm : m1 = m2 := by
          conv_lhs => rw [← Nat.div_add_mod m1 alphabet.length]
          conv_rhs => rw [← Nat.div_add_mod m2 alphabet.length]
          rw [h1, h2]
        rw [hm]

theorem zeroless_inj (alphabet : List Char) (hne : alphabet ≠ [])
    (hnd : alphabet.Nodup) {n1 n2 : Nat} (h1 : 1 ≤ n1) (h2 : 1 ≤ n2)
    (h : zeroless alphabet n1 = zeroless alphabet n2) : n1 = n2 := by
  unfold zeroless at h
  rw [if_neg (by omega), if_neg (by omega)] at h
  exact zerolessAux_inj alphabet hne hnd n1 n2 (List.reverse_injective h)

/-- C6: every zeroless bijective kind is injective on positive integers:
distinct positive numbers always render as distinct strings. -/
theorem zeroless_kinds_injective :
    ∀ k ∈ [NumberingKind.LowerLatin, .UpperLatin, .HiraganaAiueo,
        .HiraganaIroha, .KatakanaAiueo, .KatakanaIroha, .KoreanJamo,
        .KoreanSyllable, .BengaliLetter, .CircledNumber,
        .DoubleCircledNumber],
      ∀ n1 n2 : Nat, 1 ≤ n1 → 1 ≤ n2 → n1 ≠ n2 →
        NumberingKind.apply k n1 ≠ NumberingKind.apply k n2 := by
  intro k hk n1 n2 h1 h2 hne
  fin_cases hk <;>
    exact fun h => hne (zeroless_inj _ (by decide) (by decide) h1 h2 h)

/-- Witness for C6: `"a"` and `"b"` differ. -/
theorem zeroless_kinds_injective_witness :
    NumberingKind.apply .LowerLatin 1 ≠ NumberingKind.apply .LowerLatin 2 :=
  zeroless_kinds_injective .LowerLatin (by decide) 1 2 (by decide) (by decide)
    (by decide)

/-! ## Hebrew punctuation -/

theorem hebAux_zero :
    ∀ (t : List (Char × Nat)), (∀ p ∈ t, 1 ≤ p.2) →
      ∀ fmt, hebAux t 0 fmt = fmt := by
  intro t
  induction t with
  | nil => intro _ fmt; rw [hebAux]
  | cons e rest ih =>
    intro hpos fmt
    obtain ⟨name, value⟩ := e
    have hv : 1 ≤ value := hpos (name, value) (by simp)
    rw [hebAux, dif_neg (by omega)]
    exact ih (fun p hp => hpos p (List.mem_cons_of_mem _ hp)) fmt

theorem hebAux_shape :
    ∀ n : Nat, 1 ≤ n →
      ∀ t : List (Char × Nat), t.getLast? = some ('א', 1) →
        (∀ p ∈ t, 1 ≤ p.2) →
        ∀ fmt : EcoString,
          (fmt = [] →
            (∃ c, hebAux t n fmt = [c, '׳'])
            ∨ (∃ s c, hebAux t n fmt = s ++ ['״', c] ∧ s ≠ []))
          ∧ (fmt ≠ [] → ∃ s c, hebAux t n fmt = fmt ++ (s ++ ['״', c])) := by
  intro n
  induction n using Nat.strong_induction_on with
  | _ n ihn =>
    intro hn t
    induction t with
    | nil => intro hlast _ _; exact absurd hlast (by simp)
    | cons e rest iht =>
      obtain ⟨name, value⟩ := e
      intro hlast hpos fmt
      by_cases hg : 0 < value ∧ value ≤ n
      · by_cases h15 : n = 15
        · constructor
          · intro hf
            subst hf
            rw [hebAux, dif_pos hg, if_pos h15]
            right
            exact ⟨['ט'], 'ו', by simp, by simp⟩
          · intro _
            rw [hebAux, dif_pos hg, if_pos h15]
            exact ⟨['ט'], 'ו', by simp⟩
        · by_cases h16 : n = 16
          · constructor
            · intro hf
              subst hf
              rw [hebAux, dif_pos hg, if_neg h15, if_pos h16]
              right
              exact ⟨['ט'], 'ז', by simp, by simp⟩
            · intro _
              rw [hebAux, dif_pos hg, if_neg h15, if_pos h16]
              exact ⟨['ט'], 'ז', by simp⟩
          · rw [hebAux, dif_pos hg, if_neg h15, if_neg h16]
            by_cases hnv : n = value
            · have hm : n - value = 0 := by omega
              rw [hm, hebAux_zero _ hpos _]
              constructor
              · intro hf
                subst hf
                left
                exact ⟨name, by simp [hnv]⟩
              · intro hf
                exact ⟨[], name, by simp [hnv, hf]⟩
            · have hfmt' : fmt ++ (if n = value ∧ fmt ≠ [] then ['״'] else [])
                  ++ [name] ++ (if n = value ∧ fmt = [] then ['׳'] else [])
                  = fmt ++ [name] := by simp [hnv]
              rw [hfmt']
              have hlt : n - value < n := by omega
              have h1' : 1 ≤ n - value := by omega
              obtain ⟨s, c, hs⟩ :=
                (ihn (n - value) hlt h1' ((name, value) :: rest) hlast hpos
                  (fmt ++ [name])).2 (by simp)
              rw [hs]
              constructor
              · intro hf
                subst hf
                right
                exact ⟨name :: s, c, by simp, by simp⟩
              · intro _
                exact ⟨name :: s, c, by simp⟩
      · have hv : 1 ≤ value := hpos (name, value) (by simp)
        have hvn : ¬ value ≤ n := fun h => hg ⟨by omega, h⟩
        cases rest with
        | nil =>
          simp only [List.getLast?_singleton, Option.some.injEq,
            Prod.mk.injEq] at hlast
          omega
        | cons r rs =>
          rw [hebAux, dif_neg hg]
          rw [List.getLast?_cons_cons] at hlast
          exact iht hlast (fun p hp => hpos p (List.mem_cons_of_mem _ hp)) fmt

/-- C5: for every `n ≥ 1`, the Hebrew numeral's final punctuation rule
holds — the result is either a single letter followed by a geresh `׳`, or
a multi-letter string with a gershayim `״` immediately before its final
letter — and the hard-coded substitutions fire: remaining value 15
renders `"ט״ו"` and 16 renders `"ט״ז"` (also after a greedy prefix, as in
115 and 116). -/
theorem hebrew_numeral_punctuation :
    (∀ n : Nat, 1 ≤ n →
      (∃ c, hebrew_numeral n = [c, '׳'])
      ∨ (∃ s c, hebrew_numeral n = s ++ ['״', c] ∧ s ≠ []))
    ∧ hebrew_numeral 15 = "ט״ו".data
    ∧ hebrew_numeral 16 = "ט״ז".data
    ∧ hebrew_numeral 115 = "קט״ו".data
    ∧ hebrew_numeral 116 = "קט״ז".data := by
  refine ⟨?_, ?_, ?_, ?_, ?_⟩
  · intro n hn
    unfold hebrew_numeral
    rw [if_neg (by omega)]
    exact (hebAux_shape n hn hebrewTable (by decide) (by decide) []).1 rfl
  · simp [hebrew_numeral, hebAux, hebrewTable]
  · simp [hebrew_numeral, hebAux, hebrewTable]
  · simp [hebrew_numeral, hebAux, hebrewTable]
  · simp [hebrew_numeral, hebAux, hebrewTable]

/-- Witness for C5 at `n = 15`. -/
theorem hebrew_numeral_punctuation_witness :
    (∃ c, hebrew_numeral 15 = [c, '׳'])
    ∨ (∃ s c, hebrew_numeral 15 = s ++ ['״', c] ∧ s ≠ []) :=
  hebrew_numeral_punctuation.1 15 (by decide)

/-! ## Greek keraia placement -/

theorem decDigits_eq_cons (n : Nat) (h : n ≠ 0) :
    decDigits n = n % 10 :: decDigits (n / 10) := by
  rw [decDigits, if_neg h]

theorem decDigits_zero : decDigits 0 = [] := by
  rw [decDigits]
  simp

theorem decDigits_lt : ∀ n : Nat, ∀ d ∈ decDigits n, d < 10 := by
  intro n
  induction n using Nat.strong_induction_on with
  | _ n ih =>
    by_cases h : n = 0
    · subst h
      rw [decDigits_zero]
      simp
    · rw [decDigits_eq_cons n h]
      intro d hd
      rcases List.mem_cons.mp hd with hd | hd
      · subst hd
        omega
      · exact ih (n / 10) (Nat.div_lt_self (by omega) (by omega)) d hd

theorem pad4_len_mod (l : List Nat) : (pad4 l).length % 4 = 0 := by
  simp [pad4]
  omega

theorem pad4_lt (l : List Nat) (hl : ∀ d ∈ l, d < 10) :
    ∀ d ∈ pad4 l, d < 10 := by
  intro d hd
  rcases List.mem_append.mp hd with hd | hd
  · exact hl d hd
  · rw [List.eq_of_mem_replicate hd]
    omega

theorem pad4_cons4 (a b c d : Nat) (l : List Nat) :
    pad4 (a :: b :: c :: d :: l) = a :: b :: c :: d :: pad4 l := by
  unfold pad4
  simp only [List.length_cons]
  have h4 : (4 - (l.length + 1 + 1 + 1 + 1) % 4) % 4
      = (4 - l.length % 4) % 4 := by omega
  rw [h4]
  simp

theorem pad4_decDigits_low (n : Nat) (hn : n ≠ 0) :
    ∃ front : List Nat,
      pad4 (decDigits n)
        = n % 10 :: (n / 10) % 10 :: (n / 100) % 10 :: (n / 1000) % 10
            :: front
      ∧ front.length % 4 = 0 ∧ ∀ d ∈ front, d < 10 := by
  have e1 : n / 10 / 10 = n / 100 := by
    rw [Nat.div_div_eq_div_mul]
  have e2 : n / 100 / 10 = n / 1000 := by
    rw [Nat.div_div_eq_div_mul]
  have e3 : n / 1000 / 10 = n / 10000 := by
    rw [Nat.div_div_eq_div_mul]
  by_cases h1 : n < 10
  · have e : decDigits n = [n % 10] := by
      rw [decDigits_eq_cons n hn, show n / 10 = 0 by omega, decDigits_zero]
    have d1 : n / 10 % 10 = 0 := by omega
    have d2 : n / 100 % 10 = 0 := by omega
    have d3 : n / 1000 % 10 = 0 := by omega
    refine ⟨[], ?_, by simp, by simp⟩
    rw [e, d1, d2, d3]
    rfl
  · by_cases h2 : n < 100
    · have e : decDigits n = [n % 10, n / 10 % 10] := by
        rw [decDigits_eq_cons n hn, decDigits_eq_cons (n / 10) (by omega), e1,
          show n / 100 = 0 by omega, decDigits_zero]
      have d2 : n / 100 % 10 = 0 := by omega
      have d3 : n / 1000 % 10 = 0 := by omega
      refine ⟨[], ?_, by simp, by simp⟩
      rw [e, d2, d3]
      rfl
    · by_cases h3 : n < 1000
      · have e : decDigits n = [n % 10, n / 10 % 10, n / 100 % 10] := by
          rw [decDigits_eq_cons n hn, decDigits_eq_cons (n / 10) (by omega),
            e1, decDigits_eq_cons (n / 100) (by omega), e2,
            show n / 1000 = 0 by omega, decDigits_zero]
        have d3 : n / 1000 % 10 = 0 := by omega
        refine ⟨[], ?_, by simp, by simp⟩
        rw [e, d3]
        rfl
      · have e : decDigits n
            = n % 10 :: n / 10 % 10 :: n / 100 % 10 :: n / 1000 % 10
                :: decDigits (n / 10000) := by
          rw [decDigits_eq_cons n hn, decDigits_eq_cons (n / 10) (by omega),
            e1, decDigits_eq_cons (n / 100) (by omega), e2,
            decDigits_eq_cons (n / 1000) (by omega), e3]
        refine ⟨pad4 (decDigits (n / 10000)), ?_, pad4_len_mod _,
          pad4_lt _ (decDigits_lt _)⟩
        rw [e, pad4_cons4]

theorem tailChunk_last :
    ∀ case : Case, ∀ t9 < 9, ∀ h < 10, ∀ t < 10, ∀ o < 10,
      List.getLastD
        (sel case (greekThousands.getD t9 ([], []))
          ++ ((if h = 0 then []
                else sel case (greekHundreds.getD (h - 1) ([], [])))
            ++ ((if t = 0 then []
                  else sel case (greekTens.getD (t - 1) ([], [])))
              ++ (if o = 0 then []
                    else sel case (greekOnes.getD (o - 1) ([], []))))))
        'ʹ' ≠ 'ʹ' := by decide

theorem renderChunk_last_not_keraia (case : Case) (mp : Nat) (prev : Bool)
    (th h t o : Nat) (h1 : 1 ≤ th) (h9 : th < 10) (hh : h < 10) (ht : t < 10)
    (ho : o < 10) :
    (renderChunk case mp prev th h t o).getLast? ≠ none
    ∧ (renderChunk case mp prev th h t o).getLast? ≠ some 'ʹ' := by
  have hkey := tailChunk_last case (th - 1) (by omega) h hh t ht o ho
  have hre : renderChunk case mp prev th h t o
      = (if prev then ", ".data else [])
        ++ ((if mp = 0 then []
              else (greekOnes.getD (mp - 1) ([], [])).1 ++ "Μ".data)
          ++ (sel case (greekThousands.getD (th - 1) ([], []))
            ++ ((if h = 0 then []
                  else sel case (greekHundreds.getD (h - 1) ([], [])))
              ++ ((if t = 0 then []
                    else sel case (greekTens.getD (t - 1) ([], [])))
                ++ (if o = 0 then []
                      else sel case (greekOnes.getD (o - 1) ([], []))))))) := by
    unfold renderChunk
    rw [if_neg (by omega : ¬ th = 0), if_neg (by omega : ¬ th = 0)]
    simp [List.append_assoc]
  rw [List.getLastD_eq_getLast?] at hkey
  obtain ⟨x, hx⟩ : ∃ x,
      (sel case (greekThousands.getD (th - 1) ([], []))
        ++ ((if h = 0 then []
              else sel case (greekHundreds.getD (h - 1) ([], [])))
          ++ ((if t = 0 then []
                else sel case (greekTens.getD (t - 1) ([], [])))
            ++ (if o = 0 then []
                  else sel case (greekOnes.getD (o - 1) ([], [])))))).getLast?
        = some x := by
    cases hTx : (sel case (greekThousands.getD (th - 1) ([], []))
        ++ ((if h = 0 then []
              else sel case (greekHundreds.getD (h - 1) ([], [])))
          ++ ((if t = 0 then []
                else sel case (greekTens.getD (t - 1) ([], [])))
            ++ (if o = 0 then []
                  else sel case (greekOnes.getD (o - 1) ([], [])))))).getLast? with
    | none =>
      rw [hTx] at hkey
      simp at hkey
    | some x => exact ⟨x, rfl⟩
  have hxne : x ≠ 'ʹ' := by
    rw [hx] at hkey
    simpa using hkey
  have hTne : (sel case (greekThousands.getD (th - 1) ([], []))
      ++ ((if h = 0 then []
            else sel case (greekHundreds.getD (h - 1) ([], [])))
        ++ ((if t = 0 then []
              else sel case (greekTens.getD (t - 1) ([], [])))
          ++ (if o = 0 then []
                else sel case (greekOnes.getD (o - 1) ([], [])))))) ≠ [] := by
    intro hnil
    rw [hnil] at hx
    simp at hx
  have hABTne : ((if mp = 0 then []
        else (greekOnes.getD (mp - 1) ([], [])).1 ++ "Μ".data)
      ++ (sel case (greekThousands.getD (th - 1) ([], []))
        ++ ((if h = 0 then []
              else sel case (greekHundreds.getD (h - 1) ([], [])))
          ++ ((if t = 0 then []
                else sel case (greekTens.getD (t - 1) ([], [])))
            ++ (if o = 0 then []
                  else sel case (greekOnes.getD (o - 1) ([], []))))))) ≠ [] :=
    fun hnil => hTne (List.append_eq_nil.mp hnil).2
  have hval : (renderChunk case mp prev th h t o).getLast? = some x := by
    rw [hre, List.getLast?_append_of_ne_nil _ hABTne,
      List.getLast?_append_of_ne_nil _ hTne, hx]
  rw [hval]
  exact ⟨by simp, by simp [hxne]⟩

theorem renderChunk_last_keraia (case : Case) (mp : Nat) (prev : Bool)
    (h t o : Nat) :
    (renderChunk case mp prev 0 h t o).getLast? = some 'ʹ' := by
  unfold renderChunk
  simp only [reduceIte]
  rw [List.getLast?_append_of_ne_nil _ (by decide : ("ʹ").data ≠ [])]
  rfl

theorem greekChunks_last :
    ∀ (k : Nat) (case : Case) (ds : List Nat), ds.length = 4 * k →
      ∀ (th h t o : Nat), th < 10 → h < 10 → t < 10 → o < 10 →
        th + h + t + o ≠ 0 →
        ∀ (mp : Nat) (prev : Bool),
          (greekChunks case mp prev (ds ++ [th, h, t, o])).getLast? ≠ none
          ∧ ((greekChunks case mp prev (ds ++ [th, h, t, o])).getLast?
              = some 'ʹ' ↔ th = 0) := by
  intro k
  induction k with
  | zero =>
    intro case ds hlen th h t o hth hh ht ho hsum mp prev
    have hds : ds = [] := List.eq_nil_of_length_eq_zero (by omega)
    subst hds
    rw [List.nil_append, greekChunks, if_neg hsum,
      show greekChunks case (mp - 1) true [] = [] from rfl, List.append_nil]
    by_cases hth0 : th = 0
    · subst hth0
      rw [renderChunk_last_keraia]
      exact ⟨by simp, by simp⟩
    · obtain ⟨hne, hnk⟩ := renderChunk_last_not_keraia case (mp - 1) prev
        th h t o (by omega) hth hh ht ho
      refine ⟨hne, ⟨fun hsome => absurd hsome hnk, fun h0 => absurd h0 hth0⟩⟩
  | succ k ihk =>
    intro case ds hlen th h t o hth hh ht ho hsum mp prev
    rcases ds with _ | ⟨a, _ | ⟨b, _ | ⟨c, _ | ⟨d, rest⟩⟩⟩⟩ <;>
      try (simp only [List.length_nil, List.length_cons] at hlen; omega)
    have hlen' : rest.length = 4 * k := by
      simp only [List.length_cons] at hlen
      omega
    rw [List.cons_append, List.cons_append, List.cons_append,
      List.cons_append, greekChunks]
    by_cases hz : a + b + c + d = 0
    · rw [if_pos hz]
      exact ihk case rest hlen' th h t o hth hh ht ho hsum (mp - 1) prev
    · rw [if_neg hz]
      have hrec := ihk case rest hlen' th h t o hth hh ht ho hsum (mp - 1) true
      have htail_ne :
          greekChunks case (mp - 1) true (rest ++ [th, h, t, o]) ≠ [] := by
        intro hnil
        rw [hnil] at hrec
        exact hrec.1 rfl
      rw [List.getLast?_append_of_ne_nil _ htail_ne]
      exact hrec

theorem lowChunk_sum_ne_zero (n : Nat) (h : n % 10000 ≠ 0) :
    (n / 1000) % 10 + (n / 100) % 10 + (n / 10) % 10 + n % 10 ≠ 0 := by
  intro hz
  apply h
  have g1 := Nat.div_add_mod n 10
  have g2 := Nat.div_add_mod (n / 10) 10
  have g3 := Nat.div_add_mod (n / 100) 10
  have g4 := Nat.div_add_mod (n / 1000) 10
  have g5 := Nat.div_add_mod n 10000
  have e1 : n / 10 / 10 = n / 100 := by rw [Nat.div_div_eq_div_mul]
  have e2 : n / 100 / 10 = n / 1000 := by rw [Nat.div_div_eq_div_mul]
  have e3 : n / 1000 / 10 = n / 10000 := by rw [Nat.div_div_eq_div_mul]
  rw [e1] at g2
  rw [e2] at g3
  rw [e3] at g4
  omega

theorem mod10000_div1000 (n : Nat) : n % 10000 / 1000 = n / 1000 % 10 := by
  have h := Nat.mod_mul_right_div_self n 1000 10
  norm_num at h
  exact h

theorem decDigits_mul_10000 (m : Nat) (hm : m ≠ 0) :
    decDigits (10000 * m) = 0 :: 0 :: 0 :: 0 :: decDigits m := by
  rw [decDigits_eq_cons (10000 * m) (by omega),
    show 10000 * m % 10 = 0 by omega, show 10000 * m / 10 = 1000 * m by omega,
    decDigits_eq_cons (1000 * m) (by omega),
    show 1000 * m % 10 = 0 by omega, show 1000 * m / 10 = 100 * m by omega,
    decDigits_eq_cons (100 * m) (by omega),
    show 100 * m % 10 = 0 by omega, show 100 * m / 10 = 10 * m by omega,
    decDigits_eq_cons (10 * m) (by omega),
    show 10 * m % 10 = 0 by omega, show 10 * m / 10 = m by omega]

theorem greekChunks_drop_zero :
    ∀ (k : Nat) (ds : List Nat), ds.length = 4 * k →
      ∀ (case : Case) (mp : Nat) (prev : Bool),
        greekChunks case mp prev (ds ++ [0, 0, 0, 0])
          = greekChunks case mp prev ds := by
  intro k
  induction k with
  | zero =>
    intro ds hlen case mp prev
    have hds : ds = [] := List.eq_nil_of_length_eq_zero (by omega)
    subst hds
    simp [greekChunks]
  | succ k ihk =>
    intro ds hlen case mp prev
    rcases ds with _ | ⟨a, _ | ⟨b, _ | ⟨c, _ | ⟨d, rest⟩⟩⟩⟩ <;>
      try (simp only [List.length_nil, List.length_cons] at hlen; omega)
    have hlen2 : rest.length = 4 * k := by
      simp only [List.length_cons] at hlen
      omega
    rw [List.cons_append, List.cons_append, List.cons_append,
      List.cons_append]
    by_cases hz : a + b + c + d = 0
    · have hL : greekChunks case mp prev
            (a :: b :: c :: d :: (rest ++ [0, 0, 0, 0]))
          = greekChunks case (mp - 1) prev (rest ++ [0, 0, 0, 0]) := by
        rw [greekChunks, if_pos hz]
      have hR : greekChunks case mp prev (a :: b :: c :: d :: rest)
          = greekChunks case (mp - 1) prev rest := by
        rw [greekChunks, if_pos hz]
      rw [hL, hR]
      exact ihk rest hlen2 case (mp - 1) prev
    · have hL : greekChunks case mp prev
            (a :: b :: c :: d :: (rest ++ [0, 0, 0, 0]))
          = renderChunk case (mp - 1) prev a b c d
            ++ greekChunks case (mp - 1) true (rest ++ [0, 0, 0, 0]) := by
        rw [greekChunks, if_neg hz]
      have hR : greekChunks case mp prev (a :: b :: c :: d :: rest)
          = renderChunk case (mp - 1) prev a b c d
            ++ greekChunks case (mp - 1) true rest := by
        rw [greekChunks, if_neg hz]
      rw [hL, hR, ihk rest hlen2 case (mp - 1) true]

theorem greek_getLast_iff :
    ∀ n : Nat, 1 ≤ n → ∀ (case : Case) (mp : Nat),
      ((greekChunks case mp false
            ((pad4 (decDigits n)).reverse)).getLast? = some 'ʹ'
          ↔ lowNonzeroChunk n / 1000 = 0)
      ∧ (greekChunks case mp false
          ((pad4 (decDigits n)).reverse)).getLast? ≠ none := by
  intro n
  induction n using Nat.strong_induction_on with
  | _ n ih =>
    intro hn case mp
    by_cases hz : n % 10000 = 0
    · have hm1 : 1 ≤ n / 10000 := by omega
      have heq : n = 10000 * (n / 10000) := by omega
      have hd : decDigits n = 0 :: 0 :: 0 :: 0 :: decDigits (n / 10000) := by
        conv_lhs => rw [heq]
        exact decDigits_mul_10000 _ (by omega)
      rw [hd, pad4_cons4]
      have hrev : (0 :: 0 :: 0 :: 0
            :: pad4 (decDigits (n / 10000))).reverse
          = (pad4 (decDigits (n / 10000))).reverse ++ [0, 0, 0, 0] := by
        simp
      rw [hrev]
      have hmod := pad4_len_mod (decDigits (n / 10000))
      rw [greekChunks_drop_zero ((pad4 (decDigits (n / 10000))).length / 4)
        ((pad4 (decDigits (n / 10000))).reverse)
        (by rw [List.length_reverse]; omega) case mp false]
      have hlow : lowNonzeroChunk n = lowNonzeroChunk (n / 10000) := by
        rw [lowNonzeroChunk, if_neg (by omega), if_pos hz]
      rw [hlow]
      exact ih (n / 10000) (Nat.div_lt_self (by omega) (by omega)) hm1 case mp
    · obtain ⟨front, hfront, hlen4, _⟩ := pad4_decDigits_low n (by omega)
      rw [hfront]
      have hrev : (n % 10 :: n / 10 % 10 :: n / 100 % 10 :: n / 1000 % 10
            :: front).reverse
          = front.reverse
              ++ [n / 1000 % 10, n / 100 % 10, n / 10 % 10, n % 10] := by
        simp
      rw [hrev]
      have hk : front.reverse.length = 4 * (front.length / 4) := by
        rw [List.length_reverse]
        omega
      obtain ⟨hne, hiff⟩ := greekChunks_last (front.length / 4) case
        front.reverse hk (n / 1000 % 10) (n / 100 % 10) (n / 10 % 10)
        (n % 10) (Nat.mod_lt _ (by omega)) (Nat.mod_lt _ (by omega))
        (Nat.mod_lt _ (by omega)) (Nat.mod_lt _ (by omega))
        (lowChunk_sum_ne_zero n hz) mp false
      have hlow : lowNonzeroChunk n = n % 10000 := by
        rw [lowNonzeroChunk, if_neg (by omega), if_neg hz]
      rw [hlow, mod10000_div1000]
      exact ⟨hiff, hne⟩

theorem renderChunk_sep (case : Case) (mp : Nat) (th h t o : Nat) :
    renderChunk case mp true th h t o
      = (", ").data ++ renderChunk case mp false th h t o := by
  unfold renderChunk
  simp

theorem renderChunk_ne_nil (case : Case) (mp : Nat) (th h t o : Nat)
    (hth : th < 10) (hh : h < 10) (ht : t < 10) (ho : o < 10) :
    renderChunk case mp false th h t o ≠ [] := by
  by_cases h0 : th = 0
  · subst h0
    intro hnil
    have hlast := renderChunk_last_keraia case mp false h t o
    rw [hnil] at hlast
    simp at hlast
  · intro hnil
    have hlast := (renderChunk_last_not_keraia case mp false th h t o
      (by omega) hth hh ht ho).1
    rw [hnil] at hlast
    simp at hlast

theorem greekChunks_sep :
    ∀ (k : Nat) (l : List Nat), l.length = 4 * k → (∀ d ∈ l, d < 10) →
      ∀ (case : Case) (mp : Nat),
        greekChunks case mp true l
          = if greekChunks case mp false l = [] then []
            else (", ").data ++ greekChunks case mp false l := by
  intro k
  induction k with
  | zero =>
    intro l hlen _ case mp
    have hl : l = [] := List.eq_nil_of_length_eq_zero (by omega)
    subst hl
    simp [show greekChunks case mp true [] = [] from rfl,
      show greekChunks case mp false [] = [] from rfl]
  | succ k ihk =>
    intro l hlen hdig case mp
    rcases l with _ | ⟨a, _ | ⟨b, _ | ⟨c, _ | ⟨d, rest⟩⟩⟩⟩ <;>
      try (simp only [List.length_nil, List.length_cons] at hlen; omega)
    have hlen2 : rest.length = 4 * k := by
      simp only [List.length_cons] at hlen
      omega
    have hdig2 : ∀ x ∈ rest, x < 10 := fun x hx => hdig x (by simp [hx])
    by_cases hz : a + b + c + d = 0
    · have hT : greekChunks case mp true (a :: b :: c :: d :: rest)
          = greekChunks case (mp - 1) true rest := by
        rw [greekChunks, if_pos hz]
      have hF : greekChunks case mp false (a :: b :: c :: d :: rest)
          = greekChunks case (mp - 1) false rest := by
        rw [greekChunks, if_pos hz]
      rw [hT, hF]
      exact ihk rest hlen2 hdig2 case (mp - 1)
    · have hT : greekChunks case mp true (a :: b :: c :: d :: rest)
          = renderChunk case (mp - 1) true a b c d
            ++ greekChunks case (mp - 1) true rest := by
        rw [greekChunks, if_neg hz]
      have hF : greekChunks case mp false (a :: b :: c :: d :: rest)
          = renderChunk case (mp - 1) false a b c d
            ++ greekChunks case (mp - 1) true rest := by
        rw [greekChunks, if_neg hz]
      have hne : renderChunk case (mp - 1) false a b c d ≠ [] :=
        renderChunk_ne_nil case (mp - 1) a b c d
          (hdig a (by simp)) (hdig b (by simp)) (hdig c (by simp))
          (hdig d (by simp))
      rw [hT, hF, renderChunk_sep,
        if_neg (fun hcon => hne (List.append_eq_nil.mp hcon).1)]
      simp [List.append_assoc]

/-- C2 counterexample: at `n = 10000000` the lowest (last) base-10000
chunk is `0000`, so it "has no thousands digit", yet the rendering is
`"αΜ͵α"` with no trailing keraia (neither the source's keraia U+0374 nor
the claim's glyph U+02B9) — refuting "the trailing keraia mark is
appended exactly when the lowest (last) chunk has no thousands digit". -/
theorem greek_keraia_lowest_chunk_cex :
    (10000000 / 1000) % 10 = 0
    ∧ greek_numeral 10000000 Case.Lower = ("αΜ͵α").data
    ∧ (greek_numeral 10000000 Case.Lower).getLast? ≠ some 'ʹ'
    ∧ (greek_numeral 10000000 Case.Lower).getLast? ≠ some 'ʹ' := by
  have h2 : greek_numeral 10000000 Case.Lower = ("αΜ͵α").data := by
    simp [greek_numeral, decDigits, pad4, greekChunks, renderChunk,
      greekOnes, greekThousands, greekHundreds, greekTens, sel]
  exact ⟨by norm_num, h2, by rw [h2]; decide, by rw [h2]; decide⟩

/-- C2 (amended): the mark the source appends is U+0374 GREEK NUMERAL
SIGN, after each rendered (non-zero) chunk whose thousands digit is
zero; hence for every `n ≥ 1` a trailing keraia appears iff the lowest
NON-ZERO base-10000 chunk of `n` has no thousands digit — in particular
no trailing keraia whenever the lowest chunk has a non-zero thousands
digit — and a chunk rendered with `previous_has_number` set is joined to
the previous ones by the separator `", "` (shown structurally and at the
two-chunk number 12345, which renders `"αΜαʹ, ͵βτμε"`). -/
theorem greek_keraia_rule :
    (∀ (n : Nat) (case : Case), 1 ≤ n →
      ((greek_numeral n case).getLast? = some 'ʹ'
        ↔ lowNonzeroChunk n / 1000 = 0))
    ∧ (∀ (n : Nat) (case : Case), n / 1000 % 10 ≠ 0 →
        (greek_numeral n case).getLast? ≠ some 'ʹ')
    ∧ (∀ (k : Nat) (l : List Nat), l.length = 4 * k →
        (∀ d ∈ l, d < 10) → ∀ (case : Case) (mp : Nat),
          greekChunks case mp true l
            = if greekChunks case mp false l = [] then []
              else (", ").data ++ greekChunks case mp false l)
    ∧ greek_numeral 12345 Case.Lower
        = ['α', 'Μ', 'α', 'ʹ', ',', ' ', '͵', 'β', 'τ', 'μ', 'ε'] := by
  refine ⟨?_, ?_, greekChunks_sep, ?_⟩
  · intro n case hn
    unfold greek_numeral
    rw [if_neg (by omega)]
    exact (greek_getLast_iff n hn case _).1
  · intro n case hth hcontra
    have hn : 1 ≤ n := by omega
    unfold greek_numeral at hcontra
    rw [if_neg (by omega)] at hcontra
    have h1 := (greek_getLast_iff n hn case _).1.mp hcontra
    have hz : n % 10000 ≠ 0 := by
      intro h0
      apply hth
      rw [← mod10000_div1000, h0]
    have hlow : lowNonzeroChunk n = n % 10000 := by
      rw [lowNonzeroChunk, if_neg (by omega), if_neg hz]
    rw [hlow, mod10000_div1000] at h1
    exact hth h1
  · simp [greek_numeral, decDigits, pad4, greekChunks, renderChunk,
      greekOnes, greekThousands, greekHundreds, greekTens, sel]

/-- Witness for the amended C2: the iff at 123 (lowest chunk 123, no
thousands digit: trailing keraia) and at 10000000 (lowest non-zero chunk
1000, thousands digit 1: no trailing keraia), and the universal half at
5123. -/
theorem greek_keraia_rule_witness :
    ((greek_numeral 123 Case.Lower).getLast? = some 'ʹ'
      ↔ lowNonzeroChunk 123 / 1000 = 0)
    ∧ ((greek_numeral 10000000 Case.Lower).getLast? = some 'ʹ'
      ↔ lowNonzeroChunk 10000000 / 1000 = 0)
    ∧ (greek_numeral 5123 Case.Lower).getLast? ≠ some 'ʹ' :=
  ⟨greek_keraia_rule.1 123 Case.Lower (by norm_num),
   greek_keraia_rule.1 10000000 Case.Lower (by norm_num),
   greek_keraia_rule.2.1 5123 Case.Lower (by norm_num)⟩
